import Mathlib

/-!
Verification of the userspace-RCU library (`src/urcu.c`) and its companion
wait-free queue (`src/urcu/wfqueue.h`) against the natural-language
specification, via a shallow embedding.

Modelling conventions:
* Machine addresses are `Nat`; a NULL pointer is `Option.none` where the code
  distinguishes NULL, or the value `0` plays no special role otherwise.
* In `wfqueue.h`, `struct wfq_node` has a single member `next` at offset 0, so
  the address of a node and the address of its `next` field coincide
  (`node == &node->next`).  The heap of `next` fields is therefore a function
  `Nat → Option Nat` indexed by node addresses, and `q->tail`
  (a `struct wfq_node **`, i.e. the address of some node's `next` field) is
  stored as the address of that node.
* Concurrency is projected to a sequential semantics: a busy-wait loop whose
  exit condition can only be changed by another thread is modelled as
  divergence (`Option.none` result) when the condition does not already hold.
* Fuel makes the recursion in `__wfq_dequeue_blocking` structural; `none`
  means the fuel ran out (or a spin diverged), `some` is an actual return.
-/

/-- Pointwise update of a heap of `next` fields (a store through a
`struct wfq_node **`). -/
def setNext (f : Nat → Option Nat) (a : Nat) (v : Option Nat) : Nat → Option Nat :=
  fun x => if x = a then v else f x

/-- State of one `struct wfq_queue` together with the heap of node `next`
fields.  `dummy` is the address of the queue's embedded dummy node; `tail`
holds the address of the node whose `next` field `q->tail` points to
(offset-0 coincidence, see the module comment). -/
structure WfqState where
  next : Nat → Option Nat
  head : Nat
  tail : Nat
  dummy : Nat

/-- `wfq_node_init`: `node->next = NULL`. -/
def wfq_node_init (s : WfqState) (node : Nat) : WfqState :=
  { s with next := setNext s.next node none }

/-- `wfq_init`: initialize the dummy node, point `head` at it and `tail` at
its `next` field. -/
def wfq_init (s : WfqState) : WfqState :=
  let s1 := wfq_node_init s s.dummy
  { s1 with head := s1.dummy, tail := s1.dummy }

/-- First step of `wfq_enqueue`: `old_tail = uatomic_xchg(&q->tail, node)`.
The stored value `node` equals `&node->next` because `next` is the first and
only member of `struct wfq_node`.  Returns `(old_tail, state after xchg)`. -/
def wfq_enqueue_xchg (s : WfqState) (node : Nat) : Nat × WfqState :=
  (s.tail, { s with tail := node })

/-- Second step of `wfq_enqueue`: `STORE_SHARED(*old_tail, node)`, i.e. the
`next` field at address `old_tail` receives `node`. -/
def wfq_enqueue_store (s : WfqState) (old_tail node : Nat) : WfqState :=
  { s with next := setNext s.next old_tail (some node) }

/-- `wfq_enqueue`: the xchg step followed by the store step. -/
def wfq_enqueue (s : WfqState) (node : Nat) : WfqState :=
  let p := wfq_enqueue_xchg s node
  wfq_enqueue_store p.2 p.1 node

/-- `__wfq_dequeue_blocking`, fuelled.  The spin loop
`while ((next = LOAD_SHARED(node->next)) == NULL)` can only be released by a
concurrent enqueuer, so in the sequential projection a NULL `next` diverges
(`none`).  The self-recursion after requeueing the dummy consumes one unit of
fuel. -/
def __wfq_dequeue_blocking (s : WfqState) : Nat → Option (Option Nat × WfqState)
  | 0 => none
  | fuel + 1 =>
    if s.head = s.dummy ∧ s.tail = s.dummy then
      some (none, s)
    else
      match s.next s.head with
      | none => none
      | some nxt =>
        let s1 : WfqState := { s with head := nxt }
        if s.head = s.dummy then
          __wfq_dequeue_blocking (wfq_enqueue (wfq_node_init s1 s.head) s.head) fuel
        else
          some (some s.head, s1)

/-- The linked chain of the queue: `chain s a l` says that starting from node
`a`, the published `next` links run exactly through `l`, and the final node is
the one `q->tail` points into, with a NULL `next`. -/
def chain (s : WfqState) : Nat → List Nat → Prop
  | a, [] => s.tail = a ∧ s.next a = none
  | a, b :: rest => s.next a = some b ∧ chain s b rest

/-- Well-formedness of a queue state: the nodes `s.head :: l` form the linked
chain from `head` to the tail position, every link but the tail's is
published (non-NULL), the dummy is one of the nodes, and nodes are distinct.
This is the sequential-quiescent invariant (no enqueue in flight). -/
def WfqInv (s : WfqState) (l : List Nat) : Prop :=
  chain s s.head l ∧ s.dummy ∈ s.head :: l ∧ (s.head :: l).Nodup

/-- In a chain with at least one node past `a`, the tail position lies among
those later nodes. -/
theorem chain_tail_mem_tail (s : WfqState) :
    ∀ (rest : List Nat) (a b : Nat), chain s a (b :: rest) → s.tail ∈ b :: rest := by
  intro rest
  induction rest with
  | nil => intro a b h; exact List.mem_singleton.mpr h.2.1
  | cons c r ih =>
    intro a b h
    exact List.mem_cons_of_mem b (ih b c h.2)

/-- A well-formed queue satisfies the empty test of `__wfq_dequeue_blocking`
exactly when its chain past the head is empty. -/
theorem wfqInv_empty_iff (s : WfqState) (l : List Nat) (h : WfqInv s l) :
    (s.head = s.dummy ∧ s.tail = s.dummy) ↔ l = [] := by
  obtain ⟨hch, hdm, hnd⟩ := h
  constructor
  · rintro ⟨hhd, htd⟩
    cases l with
    | nil => rfl
    | cons b rest =>
      exfalso
      have hmem : s.tail ∈ b :: rest := chain_tail_mem_tail s rest s.head b hch
      rw [htd, ← hhd] at hmem
      exact (List.nodup_cons.mp hnd).1 hmem
  · rintro rfl
    have hhd : s.head = s.dummy := (List.mem_singleton.mp hdm).symm
    exact ⟨hhd, hch.1.trans hhd⟩

/-- Dequeue on a well-formed empty queue returns NULL and leaves the state
unchanged, for any positive fuel. -/
theorem dequeue_nil (s : WfqState) (h : WfqInv s []) (fuel : Nat) :
    __wfq_dequeue_blocking s (fuel + 1) = some (none, s) := by
  have he : s.head = s.dummy ∧ s.tail = s.dummy := (wfqInv_empty_iff s [] h).mpr rfl
  simp [__wfq_dequeue_blocking, he]

/-- Dequeue on a well-formed non-empty queue whose head is a real node
returns the head and advances `q->head`, for any positive fuel. -/
theorem dequeue_cons_real (s : WfqState) (b : Nat) (rest : List Nat)
    (h : WfqInv s (b :: rest)) (hhd : s.head ≠ s.dummy) (fuel : Nat) :
    __wfq_dequeue_blocking s (fuel + 1) = some (some s.head, { s with head := b }) := by
  have hne : ¬(s.head = s.dummy ∧ s.tail = s.dummy) := fun hc => hhd hc.1
  have hnx : s.next s.head = some b := h.1.1
  simp [__wfq_dequeue_blocking, hne, hnx, hhd]

/-- Unfolding equation for the dummy branch: when the node at `head` is the
dummy, the function reinitializes it, re-enqueues it and recurses. -/
theorem dequeue_dummy_step (s : WfqState) (b : Nat)
    (hne : ¬(s.head = s.dummy ∧ s.tail = s.dummy))
    (hnx : s.next s.head = some b) (hhd : s.head = s.dummy) (fuel : Nat) :
    __wfq_dequeue_blocking s (fuel + 1) =
      __wfq_dequeue_blocking
        (wfq_enqueue (wfq_node_init { s with head := b } s.head) s.head) fuel := by
  have hts : ¬s.tail = s.dummy := fun hc => hne ⟨hhd, hc⟩
  have hnx' : s.next s.dummy = some b := by rw [← hhd]; exact hnx
  simp [__wfq_dequeue_blocking, hne, hnx', hhd, hts]

/-- Requeueing the dummy at the tail extends the chain: the old links are
untouched (the dummy is not among them), the old tail position now points to
the dummy, and the dummy becomes the new tail position with a NULL `next`. -/
theorem chain_requeue (s s2 : WfqState)
    (h2n : s2.next = setNext (setNext s.next s.dummy none) s.tail (some s.dummy))
    (h2t : s2.tail = s.dummy) :
    ∀ (l : List Nat) (a : Nat), chain s a l → s.dummy ∉ a :: l → (a :: l).Nodup →
      chain s2 a (l ++ [s.dummy]) := by
  intro l
  induction l with
  | nil =>
    intro a hch hdm _
    have had : a ≠ s.dummy := fun hc => hdm (hc ▸ List.mem_singleton_self a)
    have hdt : ¬s.dummy = s.tail := fun hc => had (hc.trans hch.1).symm
    refine ⟨?_, h2t, ?_⟩
    · rw [h2n]; simp [setNext, hch.1.symm]
    · rw [h2n]; simp [setNext, hdt]
  | cons b rest ih =>
    intro a hch hdm hnd
    have hat : a ≠ s.tail := by
      intro hc
      have hmem : s.tail ∈ b :: rest := chain_tail_mem_tail s rest a b hch
      rw [← hc] at hmem
      exact (List.nodup_cons.mp hnd).1 hmem
    have had : a ≠ s.dummy := fun hc => hdm (hc ▸ List.mem_cons_self a (b :: rest))
    refine ⟨?_, ih b hch.2 (fun hc => hdm (List.mem_cons_of_mem a hc))
      (List.nodup_cons.mp hnd).2⟩
    rw [h2n]; simp [setNext, hat, had, hch.1]

/-- After dequeueing the dummy from a non-empty queue and re-enqueueing it,
the queue is again well-formed, with the dummy moved to the end. -/
theorem requeue_inv (s : WfqState) (b : Nat) (rest : List Nat)
    (h : WfqInv s (b :: rest)) (hhd : s.head = s.dummy) :
    WfqInv (wfq_enqueue (wfq_node_init { s with head := b } s.head) s.head)
      (rest ++ [s.dummy]) := by
  obtain ⟨hch, _, hnd⟩ := h
  set s2 := wfq_enqueue (wfq_node_init { s with head := b } s.head) s.head with hs2
  have h2n : s2.next = setNext (setNext s.next s.dummy none) s.tail (some s.dummy) := by
    rw [hs2]; simp [wfq_enqueue, wfq_enqueue_xchg, wfq_enqueue_store, wfq_node_init, hhd]
  have h2t : s2.tail = s.dummy := by
    rw [hs2]; simp [wfq_enqueue, wfq_enqueue_xchg, wfq_enqueue_store, wfq_node_init, hhd]
  have h2h : s2.head = b := rfl
  have h2d : s2.dummy = s.dummy := rfl
  have hdm2 : s.dummy ∉ b :: rest := by
    rw [← hhd]
    exact (List.nodup_cons.mp hnd).1
  refine ⟨?_, ?_, ?_⟩
  · rw [h2h]
    exact chain_requeue s s2 h2n h2t rest b hch.2 hdm2 (List.nodup_cons.mp hnd).2
  · rw [h2h, h2d]
    exact List.mem_cons_of_mem b (List.mem_append_right rest (List.mem_singleton_self _))
  · rw [h2h]
    have : (b :: (rest ++ [s.dummy])).Nodup ↔ (b :: rest ++ [s.dummy]).Nodup := by simp
    rw [this]
    have hmid := @List.nodup_middle Nat s.dummy (b :: rest) ([] : List Nat)
    simp only [List.append_nil] at hmid
    rw [hmid]
    rw [← hhd]
    exact hnd

/-- Dequeue on a well-formed non-empty queue whose head is the dummy:
the dummy is requeued and the recursion returns the first real node `b`. -/
theorem dequeue_cons_dummy (s : WfqState) (b : Nat) (rest : List Nat)
    (h : WfqInv s (b :: rest)) (hhd : s.head = s.dummy) (fuel nxt2 : Nat)
    (hnx2 : (wfq_enqueue (wfq_node_init { s with head := b } s.head) s.head).next b =
      some nxt2) :
    __wfq_dequeue_blocking s (fuel + 2) =
      some (some b,
        { wfq_enqueue (wfq_node_init { s with head := b } s.head) s.head with
            head := nxt2 }) := by
  have hne : ¬(s.head = s.dummy ∧ s.tail = s.dummy) := by
    intro hc
    exact List.cons_ne_nil b rest ((wfqInv_empty_iff s (b :: rest) h).mp hc)
  have hnx : s.next s.head = some b := h.1.1
  set s2 := wfq_enqueue (wfq_node_init { s with head := b } s.head) s.head with hs2
  have hstep : __wfq_dequeue_blocking s (fuel + 2) =
      __wfq_dequeue_blocking s2 (fuel + 1) :=
    dequeue_dummy_step s b hne hnx hhd (fuel + 1)
  have h2 : WfqInv s2 (rest ++ [s.dummy]) := requeue_inv s b rest h hhd
  obtain ⟨c, t2, hct⟩ := List.exists_cons_of_ne_nil
    (show rest ++ [s.dummy] ≠ [] by simp)
  rw [hct] at h2
  have h2h : s2.head = b := rfl
  have h2d : s2.dummy = s.dummy := rfl
  have hbd : b ≠ s.dummy := by
    have hnin : s.head ∉ b :: rest := (List.nodup_cons.mp h.2.2).1
    rw [hhd] at hnin
    exact fun hc => hnin (hc ▸ List.mem_cons_self b rest)
  have hhd2 : s2.head ≠ s2.dummy := by rw [h2h, h2d]; exact hbd
  have hres := dequeue_cons_real s2 c t2 h2 hhd2 fuel
  have hc2 : s2.next s2.head = some c := h2.1.1
  rw [h2h] at hc2
  rw [hnx2] at hc2
  have hcn : nxt2 = c := Option.some.inj hc2
  rw [hstep, hres, h2h, hcn]

/-- On a well-formed non-empty queue, dequeue returns some real node, whose
identity and final state do not depend on the fuel (beyond two units). -/
theorem dequeue_cons_spec (s : WfqState) (b : Nat) (rest : List Nat)
    (h : WfqInv s (b :: rest)) :
    ∃ n s', n ≠ s.dummy ∧
      ∀ fuel, __wfq_dequeue_blocking s (fuel + 2) = some (some n, s') := by
  by_cases hhd : s.head = s.dummy
  · set s2 := wfq_enqueue (wfq_node_init { s with head := b } s.head) s.head with hs2
    have h2 : WfqInv s2 (rest ++ [s.dummy]) := requeue_inv s b rest h hhd
    obtain ⟨c, t2, hct⟩ := List.exists_cons_of_ne_nil
      (show rest ++ [s.dummy] ≠ [] by simp)
    rw [hct] at h2
    have hnx2 : s2.next b = some c := h2.1.1
    have hbd : b ≠ s.dummy := by
      have hnin : s.head ∉ b :: rest := (List.nodup_cons.mp h.2.2).1
      rw [hhd] at hnin
      exact fun hc => hnin (hc ▸ List.mem_cons_self b rest)
    exact ⟨b, { s2 with head := c }, hbd,
      fun fuel => dequeue_cons_dummy s b rest h hhd fuel c hnx2⟩
  · refine ⟨s.head, { s with head := b }, hhd, fun fuel => ?_⟩
    exact dequeue_cons_real s b rest h hhd (fuel + 1)

/-- Claim C1: `wfq_enqueue` is exactly the atomic exchange of `q.tail` with
`&node.next` (which equals `node`, `next` being the first member) obtaining
`old_tail`, followed by the store of `node` into `*old_tail`; after the
exchange step, `q.tail` equals `&node.next`, and after the call the old tail
position's `next` field holds `node`. -/
theorem wfq_enqueue_two_steps (s : WfqState) (node : Nat)
    (_hnull : s.next node = none) :
    wfq_enqueue s node =
      wfq_enqueue_store (wfq_enqueue_xchg s node).2 (wfq_enqueue_xchg s node).1 node ∧
    (wfq_enqueue_xchg s node).1 = s.tail ∧
    (wfq_enqueue_xchg s node).2.tail = node ∧
    (wfq_enqueue s node).next s.tail = some node := by
  refine ⟨rfl, rfl, rfl, ?_⟩
  simp [wfq_enqueue, wfq_enqueue_xchg, wfq_enqueue_store, setNext]

/-- Claim C3: on a well-formed queue, `__wfq_dequeue_blocking` always returns
(never fails in the sequential model with enough fuel), and its result is the
NULL/none value exactly when, at entry, `q->head == &q->dummy` and
`q->tail == &q->dummy.next`. -/
theorem wfq_dequeue_empty_iff (s : WfqState) (l : List Nat) (fuel : Nat)
    (h : WfqInv s l) :
    (∃ r, __wfq_dequeue_blocking s (fuel + 2) = some r) ∧
    ((__wfq_dequeue_blocking s (fuel + 2)).map Prod.fst = some none ↔
      (s.head = s.dummy ∧ s.tail = s.dummy)) := by
  cases l with
  | nil =>
    have hd : __wfq_dequeue_blocking s (fuel + 2) = some (none, s) :=
      dequeue_nil s h (fuel + 1)
    refine ⟨⟨(none, s), hd⟩, ?_⟩
    rw [hd]
    exact iff_of_true rfl ((wfqInv_empty_iff s [] h).mpr rfl)
  | cons b rest =>
    obtain ⟨n, s', _, hfe⟩ := dequeue_cons_spec s b rest h
    refine ⟨⟨(some n, s'), hfe fuel⟩, ?_⟩
    rw [hfe fuel]
    constructor
    · intro hc
      exact Option.noConfusion (Option.some.inj hc)
    · intro hc
      exact absurd ((wfqInv_empty_iff s (b :: rest) h).mp hc) (List.cons_ne_nil b rest)

/-- Witness for C3 at a concrete empty queue. -/
theorem wfq_dequeue_empty_iff_witness :
    WfqInv (WfqState.mk (fun _ => none) 0 0 0) [] ∧
    ((__wfq_dequeue_blocking (WfqState.mk (fun _ => none) 0 0 0) 2).map Prod.fst =
        some none ↔
      ((WfqState.mk (fun _ => none) 0 0 0).head = (WfqState.mk (fun _ => none) 0 0 0).dummy ∧
       (WfqState.mk (fun _ => none) 0 0 0).tail = (WfqState.mk (fun _ => none) 0 0 0).dummy)) := by
  have hinv : WfqInv (WfqState.mk (fun _ => none) 0 0 0) [] :=
    ⟨⟨rfl, rfl⟩, by simp, by simp⟩
  exact ⟨hinv, (wfq_dequeue_empty_iff (WfqState.mk (fun _ => none) 0 0 0) [] 0 hinv).2⟩

/-- Claim C4: a non-NULL result of `__wfq_dequeue_blocking` is never the dummy
sentinel; moreover, when the dequeued node is the dummy, the function
reinitializes it (`next := NULL`), re-enqueues it, and recurses. -/
theorem wfq_dequeue_never_dummy :
    (∀ (fuel : Nat) (s : WfqState) (n : Nat),
      (__wfq_dequeue_blocking s fuel).map Prod.fst = some (some n) → n ≠ s.dummy) ∧
    (∀ (s : WfqState) (b fuel : Nat),
      ¬(s.head = s.dummy ∧ s.tail = s.dummy) → s.next s.head = some b →
      s.head = s.dummy →
      __wfq_dequeue_blocking s (fuel + 1) =
        __wfq_dequeue_blocking
          (wfq_enqueue (wfq_node_init { s with head := b } s.head) s.head) fuel) := by
  constructor
  · intro fuel
    induction fuel with
    | zero =>
      intro s n hd
      simp [__wfq_dequeue_blocking] at hd
    | succ fuel ih =>
      intro s n hd
      rw [__wfq_dequeue_blocking] at hd
      by_cases hae : s.head = s.dummy ∧ s.tail = s.dummy
      · rw [if_pos hae] at hd
        simp at hd
      · rw [if_neg hae] at hd
        cases hnx : s.next s.head with
        | none => rw [hnx] at hd; simp at hd
        | some nxt =>
          rw [hnx] at hd
          by_cases hhd : s.head = s.dummy
          · simp only [if_pos hhd] at hd
            exact ih
              (wfq_enqueue (wfq_node_init { s with head := nxt } s.head) s.head) n hd
          · simp only [if_neg hhd] at hd
            have hn : s.head = n := by simpa using hd
            exact hn ▸ hhd
  · intro s b fuel hne hnx hhd
    exact dequeue_dummy_step s b hne hnx hhd fuel

/-- Witness for C4 at a concrete queue holding the dummy then one real node. -/
theorem wfq_dequeue_never_dummy_witness :
    ((__wfq_dequeue_blocking
        (WfqState.mk (fun x => if x = 0 then some 1 else none) 0 1 0) 2).map Prod.fst =
      some (some 1) → (1 : Nat) ≠ (WfqState.mk (fun x => if x = 0 then some 1 else none) 0 1 0).dummy) ∧
    __wfq_dequeue_blocking (WfqState.mk (fun x => if x = 0 then some 1 else none) 0 1 0) 2 =
      __wfq_dequeue_blocking
        (wfq_enqueue
          (wfq_node_init
            { WfqState.mk (fun x => if x = 0 then some 1 else none) 0 1 0 with head := 1 }
            (WfqState.mk (fun x => if x = 0 then some 1 else none) 0 1 0).head)
          (WfqState.mk (fun x => if x = 0 then some 1 else none) 0 1 0).head) 1 :=
  ⟨wfq_dequeue_never_dummy.1 2 (WfqState.mk (fun x => if x = 0 then some 1 else none) 0 1 0) 1,
   wfq_dequeue_never_dummy.2 (WfqState.mk (fun x => if x = 0 then some 1 else none) 0 1 0) 1 1
     (by simp) rfl rfl⟩

/-- Claim C10: on a well-formed queue (every reachable node has a published
non-NULL `next` except the tail position), `__wfq_dequeue_blocking`
terminates, and two units of fuel suffice: the self-recursion after
requeueing the dummy has depth at most one, so any extra fuel is unused. -/
theorem wfq_dequeue_depth_le_one (s : WfqState) (l : List Nat) (h : WfqInv s l) :
    __wfq_dequeue_blocking s 2 ≠ none ∧
    ∀ fuel, __wfq_dequeue_blocking s (fuel + 2) = __wfq_dequeue_blocking s 2 := by
  cases l with
  | nil =>
    have h2 : __wfq_dequeue_blocking s 2 = some (none, s) := dequeue_nil s h 1
    refine ⟨by rw [h2]; exact Option.noConfusion, fun fuel => ?_⟩
    rw [h2]
    exact dequeue_nil s h (fuel + 1)
  | cons b rest =>
    obtain ⟨n, s', _, hfe⟩ := dequeue_cons_spec s b rest h
    have h2 : __wfq_dequeue_blocking s 2 = some (some n, s') := hfe 0
    refine ⟨by rw [h2]; exact Option.noConfusion, fun fuel => ?_⟩
    rw [h2]
    exact hfe fuel

/-- Witness for C10 at a concrete queue holding the dummy then one real node. -/
theorem wfq_dequeue_depth_le_one_witness :
    WfqInv (WfqState.mk (fun x => if x = 0 then some 1 else none) 0 1 0) [1] ∧
    __wfq_dequeue_blocking (WfqState.mk (fun x => if x = 0 then some 1 else none) 0 1 0) 2 ≠
      none := by
  have hinv : WfqInv (WfqState.mk (fun x => if x = 0 then some 1 else none) 0 1 0) [1] :=
    ⟨⟨rfl, ⟨rfl, rfl⟩⟩, by simp, by simp⟩
  exact ⟨hinv,
    (wfq_dequeue_depth_le_one (WfqState.mk (fun x => if x = 0 then some 1 else none) 0 1 0)
      [1] hinv).1⟩

/-- Witness for C1 at a concrete queue state. -/
theorem wfq_enqueue_two_steps_witness :
    (WfqState.mk (fun _ => none) 0 0 0).next 5 = none ∧
    ((wfq_enqueue_xchg (WfqState.mk (fun _ => none) 0 0 0) 5).2.tail = 5 ∧
     (wfq_enqueue (WfqState.mk (fun _ => none) 0 0 0) 5).next 0 = some 5) := by
  refine ⟨rfl, ?_⟩
  have h := wfq_enqueue_two_steps (WfqState.mk (fun _ => none) 0 0 0) 5 rfl
  exact ⟨h.2.2.1, h.2.2.2⟩

/-!
RCU core (`src/urcu.c`).  The reader registry is a growable array of
`struct reader_registry` records; we model the array's logical prefix
(`num_readers` entries) as a list and the capacity `alloc_readers` as a
number.  The registry pointer itself can be NULL (before the first
registration), hence `Option Registry`.  The thread-local cells
`urcu_active_readers` and `need_mb` each entry points to are modelled by
value inside the entry.
-/

/-- One `struct reader_registry` record: the thread id, the value of the
thread-local `urcu_active_readers` cell it points to, and the value of the
thread-local `need_mb` cell it points to. -/
structure ReaderEntry where
  tid : Nat
  active : Nat
  need_mb : Bool
deriving DecidableEq

/-- The registry array: logical entries (`registry[0] .. registry[num_readers-1]`)
plus the capacity `alloc_readers`. -/
structure Registry where
  entries : List ReaderEntry
  alloc : Nat
deriving DecidableEq

/-- Writer-visible global state of `urcu.c`: the grace-period counter
`urcu_gp_ctr` and the `registry` pointer (NULL = `none`). -/
structure RcuState where
  urcu_gp_ctr : Nat
  registry : Option Registry
deriving DecidableEq

/-- Modelled from the spec: the constant `RCU_GP_CTR_BIT` lives in
`urcu-static.h`, which is not part of the sources; the spec requires "one
dedicated bit, `PARITY_BIT`", defined there as `1UL << (sizeof(long) << 2)`,
i.e. bit 32 on an LP64 target. -/
def RCU_GP_CTR_BIT : Nat := 2 ^ 32

/-- Modelled from the spec: the nested-count unit `RCU_GP_COUNT` (a bias of 1
pre-applied to the counter), from `urcu-static.h` which is not in the
sources. -/
def RCU_GP_COUNT : Nat := 1

/-- `switch_next_urcu_qparity`:
`STORE_SHARED(urcu_gp_ctr, urcu_gp_ctr ^ RCU_GP_CTR_BIT)`. -/
def switch_next_urcu_qparity (s : RcuState) : RcuState :=
  { s with urcu_gp_ctr := s.urcu_gp_ctr ^^^ RCU_GP_CTR_BIT }

/-- Modelled from the spec: `rcu_old_gp_ongoing` lives in `urcu-static.h`,
not in the sources.  Per the spec's quiescence test, a reader is still in an
old-parity critical section iff its `active` snapshot is non-zero and its
parity bit differs from the current counter's. -/
def rcu_old_gp_ongoing (active g : Nat) : Bool :=
  decide (active ≠ 0) && decide ((active ^^^ g) &&& RCU_GP_CTR_BIT ≠ 0)

/-- `wait_for_quiescent_state`: returns immediately when the registry pointer
is NULL; otherwise busy-waits on each registered reader until it is
quiescent.  Sequential projection: the loop terminates (`some`, state
untouched) iff every reader is already quiescent, and diverges (`none`)
otherwise, since no other thread can change the counters. -/
def wait_for_quiescent_state (s : RcuState) : Option RcuState :=
  match s.registry with
  | none => some s
  | some r =>
    if r.entries.all (fun e => !rcu_old_gp_ongoing e.active s.urcu_gp_ctr) then
      some s
    else
      none

/-- `force_mb_all_threads` (signal-based variant): returns immediately when
the registry pointer is NULL; otherwise sets each reader's `need_mb`, signals
it, and waits for the handler to clear the flag.  Assuming signal delivery,
the net state effect is that every registered reader's `need_mb` cell is
clear. -/
def force_mb_all_threads (s : RcuState) : RcuState :=
  match s.registry with
  | none => s
  | some r =>
    let cleared : Registry :=
      { r with entries := r.entries.map (fun e => { e with need_mb := false }) }
    { s with registry := some cleared }

/-- `synchronize_rcu`: fence all readers, flip parity, wait for parity-0
readers, flip parity back, wait for parity-1 readers, fence all readers.
The returned list records every value stored to `urcu_gp_ctr` during the
call, in order (the two `switch_next_urcu_qparity` stores — nothing else in
the call writes the counter).  `none` means the call never returns. -/
def synchronize_rcu (s : RcuState) : Option (RcuState × List Nat) :=
  let s0 := force_mb_all_threads s
  let s1 := switch_next_urcu_qparity s0
  match wait_for_quiescent_state s1 with
  | none => none
  | some s2 =>
    let s3 := switch_next_urcu_qparity s2
    match wait_for_quiescent_state s3 with
    | none => none
    | some s4 => some (force_mb_all_threads s4, [s1.urcu_gp_ctr, s3.urcu_gp_ctr])

/-- `force_mb_all_threads` never writes the grace-period counter. -/
theorem force_mb_gp (s : RcuState) :
    (force_mb_all_threads s).urcu_gp_ctr = s.urcu_gp_ctr := by
  cases hreg : s.registry <;> simp [force_mb_all_threads, hreg]

/-- `wait_for_quiescent_state` only observes state: when it returns, the
state is unchanged. -/
theorem wait_for_quiescent_state_eq (s s' : RcuState)
    (h : wait_for_quiescent_state s = some s') : s' = s := by
  rw [wait_for_quiescent_state] at h
  split at h
  · exact (Option.some.inj h).symm
  · split at h
    · exact (Option.some.inj h).symm
    · exact absurd h (by simp)

/-- Claim C2: in every returning `synchronize_rcu` call, the only writes to
the global counter are the two parity toggles (one before each quiescence
wait), in that order; the two XORs with `RCU_GP_CTR_BIT` cancel, so the
counter's value at return equals its value at entry. -/
theorem synchronize_rcu_parity (s s' : RcuState) (tr : List Nat)
    (h : synchronize_rcu s = some (s', tr)) :
    tr = [s.urcu_gp_ctr ^^^ RCU_GP_CTR_BIT,
          (s.urcu_gp_ctr ^^^ RCU_GP_CTR_BIT) ^^^ RCU_GP_CTR_BIT] ∧
    tr.length = 2 ∧
    s'.urcu_gp_ctr = s.urcu_gp_ctr := by
  rw [synchronize_rcu] at h
  cases hw1 : wait_for_quiescent_state (switch_next_urcu_qparity (force_mb_all_threads s)) with
  | none => rw [hw1] at h; exact absurd h (by simp)
  | some s2 =>
    rw [hw1] at h
    have hs2 : s2 = switch_next_urcu_qparity (force_mb_all_threads s) :=
      wait_for_quiescent_state_eq _ _ hw1
    cases hw2 : wait_for_quiescent_state (switch_next_urcu_qparity s2) with
    | none => simp only [hw2] at h; exact absurd h (by simp)
    | some s4 =>
      simp only [hw2] at h
      have hs4 : s4 = switch_next_urcu_qparity s2 :=
        wait_for_quiescent_state_eq _ _ hw2
      obtain ⟨hst, htr⟩ := Prod.mk.injEq .. ▸ Option.some.inj h
      have hg1 : (switch_next_urcu_qparity (force_mb_all_threads s)).urcu_gp_ctr =
          s.urcu_gp_ctr ^^^ RCU_GP_CTR_BIT := by
        rw [switch_next_urcu_qparity, force_mb_gp]
      have hg3 : (switch_next_urcu_qparity s2).urcu_gp_ctr =
          (s.urcu_gp_ctr ^^^ RCU_GP_CTR_BIT) ^^^ RCU_GP_CTR_BIT := by
        rw [switch_next_urcu_qparity]
        simp only [hs2, hg1]
      refine ⟨?_, ?_, ?_⟩
      · rw [← htr, hg1, hg3]
      · rw [← htr]; rfl
      · rw [← hst, force_mb_gp, hs4, hg3, Nat.xor_cancel_right]

/-- Witness for C2 on a concrete state with an empty (NULL) registry. -/
theorem synchronize_rcu_parity_witness :
    synchronize_rcu (RcuState.mk 1 none) =
      some (RcuState.mk 1 none, [1 ^^^ RCU_GP_CTR_BIT, (1 ^^^ RCU_GP_CTR_BIT) ^^^ RCU_GP_CTR_BIT]) ∧
    ([1 ^^^ RCU_GP_CTR_BIT, (1 ^^^ RCU_GP_CTR_BIT) ^^^ RCU_GP_CTR_BIT] =
      [(RcuState.mk 1 none).urcu_gp_ctr ^^^ RCU_GP_CTR_BIT,
       ((RcuState.mk 1 none).urcu_gp_ctr ^^^ RCU_GP_CTR_BIT) ^^^ RCU_GP_CTR_BIT]) ∧
    (RcuState.mk 1 none).urcu_gp_ctr = (RcuState.mk 1 none).urcu_gp_ctr := by
  have h : synchronize_rcu (RcuState.mk 1 none) =
      some (RcuState.mk 1 none,
        [1 ^^^ RCU_GP_CTR_BIT, (1 ^^^ RCU_GP_CTR_BIT) ^^^ RCU_GP_CTR_BIT]) := by
    rw [RCU_GP_CTR_BIT]; rfl
  have hc := synchronize_rcu_parity (RcuState.mk 1 none) (RcuState.mk 1 none)
    [1 ^^^ RCU_GP_CTR_BIT, (1 ^^^ RCU_GP_CTR_BIT) ^^^ RCU_GP_CTR_BIT] h
  exact ⟨h, hc.1, hc.2.2⟩

/-- Claim C5: with no registered readers, `synchronize_rcu` terminates and is
a no-op after fences: both `force_mb_all_threads` calls and both
`wait_for_quiescent_state` calls return immediately, the two parity XORs
cancel, and the returned state equals the entry state (no registry or
per-reader state modified).  The hypothesis covers both shapes of an empty
registry: a NULL pointer, or an allocated array with zero logical entries. -/
theorem synchronize_rcu_no_readers (s : RcuState)
    (h : s.registry = none ∨ ∃ r, s.registry = some r ∧ r.entries = []) :
    synchronize_rcu s = some (s, [s.urcu_gp_ctr ^^^ RCU_GP_CTR_BIT, s.urcu_gp_ctr]) := by
  rcases h with hreg | ⟨r, hreg, hre⟩
  · cases s with
    | mk g reg =>
      cases hreg
      simp [synchronize_rcu, force_mb_all_threads, wait_for_quiescent_state,
        switch_next_urcu_qparity, Nat.xor_cancel_right]
  · cases s with
    | mk g reg =>
      cases r with
      | mk entries alloc =>
        cases hreg
        cases hre
        simp [synchronize_rcu, force_mb_all_threads, wait_for_quiescent_state,
          switch_next_urcu_qparity, Nat.xor_cancel_right]

/-- Witness for C5 on a concrete state with an allocated, empty registry. -/
theorem synchronize_rcu_no_readers_witness :
    synchronize_rcu (RcuState.mk 5 (some (Registry.mk [] 4))) =
      some (RcuState.mk 5 (some (Registry.mk [] 4)),
        [(RcuState.mk 5 (some (Registry.mk [] 4))).urcu_gp_ctr ^^^ RCU_GP_CTR_BIT,
         (RcuState.mk 5 (some (Registry.mk [] 4))).urcu_gp_ctr]) :=
  synchronize_rcu_no_readers (RcuState.mk 5 (some (Registry.mk [] 4)))
    (Or.inr ⟨Registry.mk [] 4, rfl, rfl⟩)

/-- Modelled from the spec: `_rcu_xchg_pointer` lives in `urcu-static.h`,
not in the sources; per the spec it is an atomic exchange with store fence:
it stores `v` into the cell at `p` and returns the displaced value.
The memory of RCU-protected pointer cells is a function `Nat → Nat`. -/
def _rcu_xchg_pointer (heap : Nat → Nat) (p v : Nat) : (Nat → Nat) × Nat :=
  (fun x => if x = p then v else heap x, heap p)

/-- `rcu_publish_content_sym`: exchange the new pointer into the cell, run
`synchronize_rcu`, and return the displaced pointer.  `none` means the
grace period never ends (the call does not return). -/
def rcu_publish_content_sym (s : RcuState) (heap : Nat → Nat) (p v : Nat) :
    Option (RcuState × (Nat → Nat) × Nat) :=
  let r := _rcu_xchg_pointer heap p v
  match synchronize_rcu s with
  | none => none
  | some (s', _) => some (s', r.1, r.2)

/-- Claim C6: a returning `rcu_publish_content_sym(p, v)` call has exchanged
`v` into the cell at `p` (all other cells untouched), has run a full
`synchronize_rcu`, and returns exactly the pointer value the exchange
displaced from the cell. -/
theorem rcu_publish_content_spec (s : RcuState) (heap : Nat → Nat) (p v : Nat)
    (s' : RcuState) (heap' : Nat → Nat) (old : Nat)
    (h : rcu_publish_content_sym s heap p v = some (s', heap', old)) :
    old = heap p ∧ heap' p = v ∧ (∀ q, q ≠ p → heap' q = heap q) ∧
    (∃ tr, synchronize_rcu s = some (s', tr)) := by
  rw [rcu_publish_content_sym] at h
  cases hsy : synchronize_rcu s with
  | none => rw [hsy] at h; exact absurd h (by simp)
  | some pr =>
    cases pr with
    | mk s2 tr =>
      rw [hsy] at h
      obtain ⟨hs, hrest⟩ := Prod.mk.injEq .. ▸ Option.some.inj h
      obtain ⟨hh, hold⟩ := Prod.mk.injEq .. ▸ hrest
      refine ⟨?_, ?_, ?_, ?_⟩
      · rw [← hold]; rfl
      · rw [← hh]; simp [_rcu_xchg_pointer]
      · intro q hq; rw [← hh]; simp [_rcu_xchg_pointer, hq]
      · exact ⟨tr, by rw [← hs]⟩

/-- Witness for C6 on a concrete cell and empty-registry state. -/
theorem rcu_publish_content_spec_witness :
    rcu_publish_content_sym (RcuState.mk 1 none) (fun _ => 7) 0 9 =
      some (RcuState.mk 1 none, fun x => if x = 0 then 9 else 7, 7) ∧
    (7 : Nat) = (fun _ => 7 : Nat → Nat) 0 := by
  have h : rcu_publish_content_sym (RcuState.mk 1 none) (fun _ => 7) 0 9 =
      some (RcuState.mk 1 none, fun x => if x = 0 then 9 else 7, 7) := by
    have hsy : synchronize_rcu (RcuState.mk 1 none) =
        some (RcuState.mk 1 none, [1 ^^^ RCU_GP_CTR_BIT, 1]) := by
      rw [RCU_GP_CTR_BIT]; rfl
    rw [rcu_publish_content_sym, hsy]
    rfl
  exact ⟨h, (rcu_publish_content_spec (RcuState.mk 1 none) (fun _ => 7) 0 9
    (RcuState.mk 1 none) (fun x => if x = 0 then 9 else 7) 7 h).1⟩

/-!
Reader registry (`rcu_add_reader` / `rcu_remove_reader`), called under
`urcu_mutex` by `rcu_register_thread` / `rcu_unregister_thread`.
-/

/-- `INIT_NUM_THREADS`: initial registry capacity. -/
def INIT_NUM_THREADS : Nat := 4

/-- `rcu_add_reader`: allocate the array (capacity `INIT_NUM_THREADS`,
zero logical entries) if the registry pointer is NULL; double the capacity
when the new count would exceed it (the realloc copies all existing entries,
which list persistence models); then append the new entry and bump
`num_readers`. -/
def rcu_add_reader (reg : Option Registry) (e : ReaderEntry) : Registry :=
  let r0 : Registry :=
    match reg with
    | none => { entries := [], alloc := INIT_NUM_THREADS }
    | some r => r
  let r1 : Registry :=
    if r0.alloc < r0.entries.length + 1 then
      { r0 with alloc := r0.alloc * 2 }
    else
      r0
  { r1 with entries := r1.entries ++ [e] }

/-- `rcu_remove_reader` on the logical entry list: scan for the first entry
whose tid equals `id`; if none matches, the `assert(0)` fires (`none`).
Otherwise `memcpy` the last entry over the found slot and decrement
`num_readers` (the code also zeroes the now out-of-range last slot, which the
truncation models). -/
def rcu_remove_reader (l : List ReaderEntry) (t : Nat) : Option (List ReaderEntry) :=
  match l.findIdx? (fun e => e.tid == t) with
  | none => none
  | some i => some ((l.set i (l.getLastD (ReaderEntry.mk 0 0 false))).dropLast)

/-- Swap-remove on an explicitly decomposed list: overwriting the slot
holding `x` with the last element and dropping the last position is, up to
permutation, just removing `x`'s slot. -/
theorem swapRemove_perm_aux (A B : List ReaderEntry) (x d : ReaderEntry) :
    (((A ++ x :: B).set A.length ((A ++ x :: B).getLastD d)).dropLast).Perm
      (A ++ B) := by
  rcases List.eq_nil_or_concat B with hB | ⟨B2, z, hB⟩
  · subst hB
    have hlast : (A ++ [x]).getLastD d = x := List.getLastD_concat d x A
    rw [hlast, List.set_append]
    rw [if_neg (lt_irrefl A.length)]
    simp
  · rw [List.concat_eq_append] at hB
    subst hB
    have hassoc : A ++ x :: (B2 ++ [z]) = (A ++ x :: B2) ++ [z] := by simp
    have hlast : (A ++ x :: (B2 ++ [z])).getLastD d = z := by
      rw [hassoc]; exact List.getLastD_concat d z (A ++ x :: B2)
    rw [hlast, List.set_append]
    rw [if_neg (lt_irrefl A.length)]
    rw [Nat.sub_self]
    have hset : (x :: (B2 ++ [z])).set 0 z = z :: (B2 ++ [z]) := rfl
    rw [hset]
    have hassoc2 : A ++ z :: (B2 ++ [z]) = (A ++ z :: B2) ++ [z] := by simp
    rw [hassoc2, List.dropLast_concat]
    have hperm : (z :: B2).Perm (B2 ++ [z]) := (List.perm_append_singleton z B2).symm
    calc (A ++ z :: B2).Perm (A ++ (B2 ++ [z])) := hperm.append_left A
      _ = _ := rfl

/-- Swap-remove at index `i` is, up to permutation, erasure of index `i`. -/
theorem swapRemove_perm (l : List ReaderEntry) (i : Nat) (hi : i < l.length)
    (d : ReaderEntry) :
    ((l.set i (l.getLastD d)).dropLast).Perm (l.take i ++ l.drop (i + 1)) := by
  have hlenA : (l.take i).length = i := by
    rw [List.length_take]; omega
  have hsplit : l = l.take i ++ l.get ⟨i, hi⟩ :: l.drop (i + 1) := by
    conv_lhs => rw [← List.take_append_drop i l]
    rw [List.drop_eq_getElem_cons hi]
    rfl
  have haux := swapRemove_perm_aux (l.take i) (l.drop (i + 1)) (l.get ⟨i, hi⟩) d
  rw [hlenA] at haux
  rw [← hsplit] at haux
  exact haux

/-- Decomposition of a list around index `i`. -/
theorem take_get_drop {α : Type} (l : List α) (i : Nat) (hi : i < l.length) :
    l = l.take i ++ l.get ⟨i, hi⟩ :: l.drop (i + 1) := by
  conv_lhs => rw [← List.take_append_drop i l]
  rw [List.drop_eq_getElem_cons hi]
  rfl

/-- Everything strictly before the index found by `findIdx?` fails the
predicate (the scan takes the first match). -/
theorem findIdx_take_not {α : Type} (p : α → Bool) :
    ∀ (l : List α) (i : Nat), l.findIdx? p = some i →
      ∀ e ∈ l.take i, ¬p e = true := by
  intro l
  induction l with
  | nil => intro i h; rw [List.findIdx?_nil] at h; exact absurd h (by simp)
  | cons x xs ih =>
    intro i h e he
    rw [List.findIdx?_cons] at h
    by_cases hpx : p x
    · rw [if_pos hpx] at h
      have hi0 : i = 0 := (Option.some.inj h).symm
      subst hi0
      exact absurd he (by simp)
    · rw [if_neg hpx] at h
      rw [List.findIdx?_succ] at h
      cases hfx : xs.findIdx? p with
      | none => rw [hfx] at h; exact absurd h (by simp)
      | some j =>
        rw [hfx] at h
        have hij : i = j + 1 := by simpa using h.symm
        subst hij
        rw [List.take_succ_cons] at he
        rcases List.mem_cons.mp he with rfl | hexs
        · exact hpx
        · exact ih j hfx e hexs

/-- The element at the index found by `findIdx?` satisfies the predicate. -/
theorem findIdx_get_p {α : Type} (p : α → Bool) :
    ∀ (l : List α) (i : Nat), l.findIdx? p = some i →
      ∃ hi : i < l.length, p (l.get ⟨i, hi⟩) = true := by
  intro l
  induction l with
  | nil => intro i h; rw [List.findIdx?_nil] at h; exact absurd h (by simp)
  | cons x xs ih =>
    intro i h
    rw [List.findIdx?_cons] at h
    by_cases hpx : p x
    · rw [if_pos hpx] at h
      have hi0 : i = 0 := (Option.some.inj h).symm
      subst hi0
      exact ⟨by simp, hpx⟩
    · rw [if_neg hpx] at h
      rw [List.findIdx?_succ] at h
      cases hfx : xs.findIdx? p with
      | none => rw [hfx] at h; exact absurd h (by simp)
      | some j =>
        rw [hfx] at h
        have hij : i = j + 1 := by simpa using h.symm
        subst hij
        obtain ⟨hj, hpj⟩ := ih j hfx
        exact ⟨by simpa using hj, hpj⟩

/-- Claim C7: `rcu_remove_reader` hits `assert(0)` (modelled `none`) exactly
for a thread with no entry; on success the found slot is overwritten by the
last entry, the logical length shrinks by exactly one, every entry of another
thread remains present, and no entry of the removed thread remains. -/
theorem rcu_remove_reader_spec (l : List ReaderEntry) (t : Nat)
    (hnd : (l.map (fun e => e.tid)).Nodup) :
    ((∀ e ∈ l, e.tid ≠ t) → rcu_remove_reader l t = none) ∧
    (∀ l', rcu_remove_reader l t = some l' →
      l'.length + 1 = l.length ∧
      (∀ e ∈ l, e.tid ≠ t → e ∈ l') ∧
      (∀ e ∈ l', e.tid ≠ t)) := by
  constructor
  · intro hall
    rw [rcu_remove_reader]
    have hnone : l.findIdx? (fun e => e.tid == t) = none := by
      rw [List.findIdx?_eq_none_iff]
      intro x hx
      exact beq_eq_false_iff_ne.mpr (hall x hx)
    rw [hnone]
  · intro l' hl'
    rw [rcu_remove_reader] at hl'
    cases hf : l.findIdx? (fun e => e.tid == t) with
    | none => rw [hf] at hl'; exact absurd hl' (by simp)
    | some i =>
      rw [hf] at hl'
      have hl'eq : l' = (l.set i (l.getLastD (ReaderEntry.mk 0 0 false))).dropLast :=
        (Option.some.inj hl').symm
      obtain ⟨hi, hpi⟩ := findIdx_get_p (fun e => e.tid == t) l i hf
      have hxt : (l.get ⟨i, hi⟩).tid = t := by simpa using hpi
      have hperm : l'.Perm (l.take i ++ l.drop (i + 1)) := by
        rw [hl'eq]; exact swapRemove_perm l i hi _
      have hsplit := take_get_drop l i hi
      refine ⟨?_, ?_, ?_⟩
      · rw [hl'eq, List.length_dropLast, List.length_set]
        omega
      · intro e he hene
        rw [hperm.mem_iff]
        rw [hsplit] at he
        rcases List.mem_append.mp he with hA | hxB
        · exact List.mem_append_left _ hA
        · rcases List.mem_cons.mp hxB with rfl | hB
          · exact absurd hxt hene
          · exact List.mem_append_right _ hB
      · intro e he'
        have heAB : e ∈ l.take i ++ l.drop (i + 1) := hperm.mem_iff.mp he'
        have hnd2 : ((l.take i ++ l.get ⟨i, hi⟩ :: l.drop (i + 1)).map
            (fun e => e.tid)).Nodup := by
          rw [← hsplit]; exact hnd
        rw [List.map_append, List.map_cons] at hnd2
        have hnotin : (l.get ⟨i, hi⟩).tid ∉
            (l.take i).map (fun e => e.tid) ++ (l.drop (i + 1)).map (fun e => e.tid) :=
          (List.nodup_cons.mp (List.nodup_middle.mp hnd2)).1
        intro hetid
        apply hnotin
        rw [hxt, ← hetid, ← List.map_append]
        exact List.mem_map_of_mem (fun e => e.tid) heAB

/-- Witness for C7 on a concrete two-entry registry. -/
theorem rcu_remove_reader_spec_witness :
    (([ReaderEntry.mk 1 0 false, ReaderEntry.mk 2 0 false].map (fun e => e.tid)).Nodup ∧
     rcu_remove_reader [ReaderEntry.mk 1 0 false, ReaderEntry.mk 2 0 false] 2 =
       some [ReaderEntry.mk 1 0 false]) ∧
    ([ReaderEntry.mk 1 0 false] : List ReaderEntry).length + 1 =
      ([ReaderEntry.mk 1 0 false, ReaderEntry.mk 2 0 false] : List ReaderEntry).length ∧
    (∀ e ∈ [ReaderEntry.mk 1 0 false, ReaderEntry.mk 2 0 false],
      e.tid ≠ 2 → e ∈ [ReaderEntry.mk 1 0 false]) ∧
    (∀ e ∈ [ReaderEntry.mk 1 0 false], e.tid ≠ 2) := by
  refine ⟨⟨by decide, by decide⟩, ?_⟩
  exact (rcu_remove_reader_spec [ReaderEntry.mk 1 0 false, ReaderEntry.mk 2 0 false] 2
    (by decide)).2 [ReaderEntry.mk 1 0 false] (by decide)

/-- Removing thread `t` turns the tid multiset into the original with the
first occurrence of `t` erased (swap-with-last reorders but preserves the
rest). -/
theorem rcu_remove_reader_tids_perm (l : List ReaderEntry) (t : Nat)
    (l' : List ReaderEntry) (h : rcu_remove_reader l t = some l') :
    (l'.map (fun e => e.tid)).Perm ((l.map (fun e => e.tid)).erase t) := by
  rw [rcu_remove_reader] at h
  cases hf : l.findIdx? (fun e => e.tid == t) with
  | none => rw [hf] at h; exact absurd h (by simp)
  | some i =>
    rw [hf] at h
    have hl'eq : l' = (l.set i (l.getLastD (ReaderEntry.mk 0 0 false))).dropLast :=
      (Option.some.inj h).symm
    obtain ⟨hi, hpi⟩ := findIdx_get_p (fun e => e.tid == t) l i hf
    have hxt : (l.get ⟨i, hi⟩).tid = t := by simpa using hpi
    have hperm : l'.Perm (l.take i ++ l.drop (i + 1)) := by
      rw [hl'eq]; exact swapRemove_perm l i hi _
    have hmperm := hperm.map (fun e => e.tid)
    have htA : t ∉ (l.take i).map (fun e => e.tid) := by
      intro hmem
      obtain ⟨e, he, hety⟩ := List.mem_map.mp hmem
      exact findIdx_take_not (fun e => e.tid == t) l i hf e he (by simp [hety])
    have hsplit := take_get_drop l i hi
    have herase : (l.map (fun e => e.tid)).erase t =
        (l.take i).map (fun e => e.tid) ++ (l.drop (i + 1)).map (fun e => e.tid) := by
      conv_lhs => rw [hsplit]
      rw [List.map_append, List.map_cons, hxt]
      rw [List.erase_append_right _ htA]
      rw [List.erase_cons_head]
    rw [herase]
    rw [List.map_append] at hmperm
    exact hmperm

/-- One call to `rcu_register_thread` (with the caller's entry) or
`rcu_unregister_thread` (with the caller's tid). -/
inductive RegOp where
  | register (e : ReaderEntry)
  | unregister (t : Nat)

/-- Logical entries of a possibly-NULL registry. -/
def regEntries : Option Registry → List ReaderEntry
  | none => []
  | some r => r.entries

/-- Capacity of a possibly-NULL registry (0 before the first allocation). -/
def regAlloc : Option Registry → Nat
  | none => 0
  | some r => r.alloc

/-- Thread ids currently registered. -/
def regTids (reg : Option Registry) : List Nat :=
  (regEntries reg).map (fun e => e.tid)

/-- One mutex-protected registration call.  `none` is the fatal path:
`rcu_remove_reader`'s `assert` on a NULL registry or an unknown tid. -/
def applyOp (reg : Option Registry) : RegOp → Option (Option Registry)
  | RegOp.register e => some (some (rcu_add_reader reg e))
  | RegOp.unregister t =>
    match reg with
    | none => none
    | some r => (rcu_remove_reader r.entries t).map (fun l => some { r with entries := l })

/-- A sequence of registration calls; `none` as soon as one call is fatal. -/
def applyOps (reg : Option Registry) : List RegOp → Option (Option Registry)
  | [] => some reg
  | op :: rest =>
    match applyOp reg op with
    | none => none
    | some reg2 => applyOps reg2 rest

/-- Appending the new entry is what `rcu_add_reader` does to the logical
entries, whether or not the backing array was (re)allocated. -/
theorem rcu_add_reader_entries (reg : Option Registry) (e : ReaderEntry) :
    (rcu_add_reader reg e).entries = regEntries reg ++ [e] := by
  cases reg with
  | none => rfl
  | some r =>
    by_cases hgrow : r.alloc < r.entries.length + 1
    · simp [rcu_add_reader, regEntries, hgrow]
    · simp [rcu_add_reader, regEntries, hgrow]

/-- A single successful call never lowers the capacity. -/
theorem applyOp_alloc_le (reg reg2 : Option Registry) (op : RegOp)
    (h : applyOp reg op = some reg2) : regAlloc reg ≤ regAlloc reg2 := by
  cases op with
  | register e =>
    have hr2 : some (some (rcu_add_reader reg e)) = some reg2 := h
    have hr2' := Option.some.inj hr2
    subst hr2'
    cases reg with
    | none => simp [regAlloc, rcu_add_reader, INIT_NUM_THREADS]
    | some r =>
      by_cases hgrow : r.alloc < r.entries.length + 1
      · simp only [regAlloc, rcu_add_reader, if_pos hgrow]
        omega
      · simp only [regAlloc, rcu_add_reader, if_neg hgrow]
        exact le_refl _
  | unregister t =>
    cases reg with
    | none => exact absurd h (by simp [applyOp])
    | some r =>
      simp only [applyOp] at h
      cases hrm : rcu_remove_reader r.entries t with
      | none => rw [hrm] at h; exact absurd h (by simp)
      | some l2 =>
        rw [hrm] at h
        have hreg2 : some (some { r with entries := l2 }) = some reg2 := h
        have := Option.some.inj hreg2
        subst this
        exact le_refl _

/-- Over any successful sequence of calls the capacity never decreases. -/
theorem applyOps_alloc_mono : ∀ (ops : List RegOp) (reg reg' : Option Registry),
    applyOps reg ops = some reg' → regAlloc reg ≤ regAlloc reg' := by
  intro ops
  induction ops with
  | nil =>
    intro reg reg' h
    rw [applyOps] at h
    rw [← Option.some.inj h]
  | cons op rest ih =>
    intro reg reg' h
    rw [applyOps] at h
    cases hop : applyOp reg op with
    | none => rw [hop] at h; exact absurd h (by simp)
    | some reg2 =>
      rw [hop] at h
      exact le_trans (applyOp_alloc_le reg reg2 op hop) (ih reg2 reg' h)

/-- Claim C8: the registry capacity is `INIT_NUM_THREADS` (4) on first
registration, doubles exactly when a registration would exceed the current
capacity, never decreases over any successful sequence of register and
deregister calls, and every registration preserves all previously stored
entries (it appends the new one). -/
theorem rcu_add_reader_capacity :
    (∀ e, (rcu_add_reader none e).alloc = INIT_NUM_THREADS) ∧
    (∀ (r : Registry) (e : ReaderEntry), r.alloc < r.entries.length + 1 →
      (rcu_add_reader (some r) e).alloc = r.alloc * 2) ∧
    (∀ (r : Registry) (e : ReaderEntry), ¬r.alloc < r.entries.length + 1 →
      (rcu_add_reader (some r) e).alloc = r.alloc) ∧
    (∀ reg e, (rcu_add_reader reg e).entries = regEntries reg ++ [e]) ∧
    (∀ ops reg reg', applyOps reg ops = some reg' → regAlloc reg ≤ regAlloc reg') := by
  refine ⟨fun e => rfl, ?_, ?_, rcu_add_reader_entries, applyOps_alloc_mono⟩
  · intro r e hgrow
    simp [rcu_add_reader, hgrow]
  · intro r e hgrow
    simp [rcu_add_reader, hgrow]

/-- Witness for C8: fresh allocation, a doubling step, and monotonicity over
a concrete call sequence. -/
theorem rcu_add_reader_capacity_witness :
    (rcu_add_reader none (ReaderEntry.mk 1 0 false)).alloc = INIT_NUM_THREADS ∧
    ((Registry.mk [ReaderEntry.mk 1 0 false, ReaderEntry.mk 2 0 false,
        ReaderEntry.mk 3 0 false, ReaderEntry.mk 4 0 false] 4).alloc <
      (Registry.mk [ReaderEntry.mk 1 0 false, ReaderEntry.mk 2 0 false,
        ReaderEntry.mk 3 0 false, ReaderEntry.mk 4 0 false] 4).entries.length + 1 ∧
      (rcu_add_reader (some (Registry.mk [ReaderEntry.mk 1 0 false,
          ReaderEntry.mk 2 0 false, ReaderEntry.mk 3 0 false,
          ReaderEntry.mk 4 0 false] 4)) (ReaderEntry.mk 5 0 false)).alloc =
        (Registry.mk [ReaderEntry.mk 1 0 false, ReaderEntry.mk 2 0 false,
          ReaderEntry.mk 3 0 false, ReaderEntry.mk 4 0 false] 4).alloc * 2) ∧
    (applyOps none [RegOp.register (ReaderEntry.mk 1 0 false)] =
        some (some (Registry.mk [ReaderEntry.mk 1 0 false] 4)) ∧
      regAlloc none ≤ regAlloc (some (Registry.mk [ReaderEntry.mk 1 0 false] 4))) := by
  refine ⟨rcu_add_reader_capacity.1 (ReaderEntry.mk 1 0 false),
    ⟨by decide, ?_⟩, ⟨by decide, ?_⟩⟩
  · exact rcu_add_reader_capacity.2.1 (Registry.mk [ReaderEntry.mk 1 0 false,
      ReaderEntry.mk 2 0 false, ReaderEntry.mk 3 0 false, ReaderEntry.mk 4 0 false] 4)
      (ReaderEntry.mk 5 0 false) (by decide)
  · exact rcu_add_reader_capacity.2.2.2.2 [RegOp.register (ReaderEntry.mk 1 0 false)]
      none (some (Registry.mk [ReaderEntry.mk 1 0 false] 4)) (by decide)

/-- Protocol validity of a call sequence: a thread registers only while not
currently registered (`rcu_register_thread` is called once per thread; the
code does not check this itself).  Deregistrations carry no extra condition —
a failing one already aborts the run. -/
def goodOps : Option Registry → List RegOp → Prop
  | _, [] => True
  | reg, RegOp.register e :: rest =>
    e.tid ∉ regTids reg ∧ goodOps (some (rcu_add_reader reg e)) rest
  | reg, RegOp.unregister t :: rest =>
    ∀ reg2, applyOp reg (RegOp.unregister t) = some reg2 → goodOps reg2 rest

/-- The specification-level multiset of currently registered thread ids:
registration appends the id, deregistration erases it. -/
def specRegistered : List Nat → List RegOp → List Nat
  | acc, [] => acc
  | acc, RegOp.register e :: rest => specRegistered (acc ++ [e.tid]) rest
  | acc, RegOp.unregister t :: rest => specRegistered (acc.erase t) rest

/-- `specRegistered` respects permutation of its accumulator. -/
theorem specRegistered_perm : ∀ (ops : List RegOp) (A B : List Nat), A.Perm B →
    (specRegistered A ops).Perm (specRegistered B ops) := by
  intro ops
  induction ops with
  | nil => intro A B h; exact h
  | cons op rest ih =>
    intro A B h
    cases op with
    | register e => exact ih _ _ (h.append_right [e.tid])
    | unregister t => exact ih _ _ (h.erase t)

/-- A successful deregistration erases the thread's id from the tid multiset
(up to the reordering done by swap-with-last). -/
theorem applyOp_unregister_perm (reg reg2 : Option Registry) (t : Nat)
    (h : applyOp reg (RegOp.unregister t) = some reg2) :
    (regTids reg2).Perm ((regTids reg).erase t) := by
  cases reg with
  | none => exact absurd h (by simp [applyOp])
  | some r =>
    simp only [applyOp] at h
    cases hrm : rcu_remove_reader r.entries t with
    | none => rw [hrm] at h; exact absurd h (by simp)
    | some l2 =>
      rw [hrm] at h
      have hreg2 : some (some { r with entries := l2 }) = some reg2 := h
      have hr2 := Option.some.inj hreg2
      subst hr2
      exact rcu_remove_reader_tids_perm r.entries t l2 hrm

/-- Claim C9: after any successful, protocol-respecting interleaving of
register and deregister calls, the registry holds pairwise-distinct thread
ids, and its tid multiset is exactly (a permutation of) the
specification-level registered set: each currently registered thread appears
exactly once, and a deregistered thread no longer appears. -/
theorem registry_integrity : ∀ (ops : List RegOp) (reg reg' : Option Registry),
    (regTids reg).Nodup → goodOps reg ops → applyOps reg ops = some reg' →
    (regTids reg').Nodup ∧
    (regTids reg').Perm (specRegistered (regTids reg) ops) := by
  intro ops
  induction ops with
  | nil =>
    intro reg reg' hnd _ happ
    rw [applyOps] at happ
    have hr := Option.some.inj happ
    subst hr
    exact ⟨hnd, List.Perm.refl _⟩
  | cons op rest ih =>
    intro reg reg' hnd hgood happ
    rw [applyOps] at happ
    cases op with
    | register e =>
      obtain ⟨hfresh, hgood2⟩ := hgood
      have hstep : applyOp reg (RegOp.register e) =
        some (some (rcu_add_reader reg e)) := rfl
      rw [hstep] at happ
      have htids : regTids (some (rcu_add_reader reg e)) = regTids reg ++ [e.tid] := by
        simp [regTids, regEntries, rcu_add_reader_entries]
      have hnd2 : (regTids (some (rcu_add_reader reg e))).Nodup := by
        rw [htids]
        rw [(List.perm_append_singleton e.tid (regTids reg)).nodup_iff]
        exact List.nodup_cons.mpr ⟨hfresh, hnd⟩
      obtain ⟨hnd3, hperm⟩ := ih (some (rcu_add_reader reg e)) reg' hnd2 hgood2 happ
      rw [htids] at hperm
      exact ⟨hnd3, hperm⟩
    | unregister t =>
      cases hop : applyOp reg (RegOp.unregister t) with
      | none => rw [hop] at happ; exact absurd happ (by simp)
      | some reg2 =>
        rw [hop] at happ
        have hgood2 := hgood reg2 hop
        have hperm2 : (regTids reg2).Perm ((regTids reg).erase t) :=
          applyOp_unregister_perm reg reg2 t hop
        have hnd2 : (regTids reg2).Nodup := hperm2.nodup_iff.mpr (hnd.erase t)
        obtain ⟨hnd3, hperm⟩ := ih reg2 reg' hnd2 hgood2 happ
        exact ⟨hnd3, hperm.trans
          (specRegistered_perm rest (regTids reg2) ((regTids reg).erase t) hperm2)⟩

/-- Witness for C9 on a concrete sequence: register thread 1, register
thread 2, deregister thread 1. -/
theorem registry_integrity_witness :
    ((regTids none).Nodup ∧
     applyOps none [RegOp.register (ReaderEntry.mk 1 0 false),
       RegOp.register (ReaderEntry.mk 2 0 false), RegOp.unregister 1] =
       some (some (Registry.mk [ReaderEntry.mk 2 0 false] 4))) ∧
    (regTids (some (Registry.mk [ReaderEntry.mk 2 0 false] 4))).Nodup ∧
    (regTids (some (Registry.mk [ReaderEntry.mk 2 0 false] 4))).Perm
      (specRegistered (regTids none) [RegOp.register (ReaderEntry.mk 1 0 false),
        RegOp.register (ReaderEntry.mk 2 0 false), RegOp.unregister 1]) := by
  refine ⟨⟨by decide, by decide⟩, ?_⟩
  exact registry_integrity [RegOp.register (ReaderEntry.mk 1 0 false),
    RegOp.register (ReaderEntry.mk 2 0 false), RegOp.unregister 1] none
    (some (Registry.mk [ReaderEntry.mk 2 0 false] 4))
    (by decide) ⟨by decide, by decide, fun reg2 _ => trivial⟩ (by decide)
